import Mathlib

/-!
Shallow embedding of `textual_click/introspect.py` (the trogon / textual-click
schema extractor).  The Python code builds `CommandSchema` objects whose
`parent` field is a mutable back reference into the object graph; we model the
object graph with an index based arena: every `CommandSchema` lives in a list,
and `parent` / `subcommands` store indices into that list, turning the cyclic
Python object graph into a flat purely functional structure whose node
identity is its index.  The `click` input side is modelled by the small
`ClickCommand` language below, which exposes exactly the fields the extractor
reads (`help`, `callback`, `params`, `commands`, and for each parameter
`name`, `type`, `required`, `default`, `help`, and choice sets).
-/

/-- Runtime values of the dynamic language (Python `Any`), as used for
parameter defaults. -/
inductive Value where
  | vBool (b : Bool)
  | vInt (n : Int)
  | vStr (s : String)
deriving DecidableEq, Repr

/-- A parameter type (`click.ParamType`): a plain named type, or a
`click.Choice` carrying its declared list of string choices. -/
inductive ParamType where
  | plain (name : String)
  | choice (choices : List String)
deriving DecidableEq, Repr

/-- `param.type.name`; a `click.Choice` has the type name `"choice"`. -/
def ParamType.name : ParamType → String
  | .plain s => s
  | .choice _ => "choice"

/-- Whether the type is a `click.Choice` (enumeration of strings). -/
def ParamType.isChoice : ParamType → Bool
  | .choice _ => true
  | .plain _ => false

/-- An entry of `cmd_obj.params`.  `option` is a `click.Option`; `groupParam`
is the quirk variant of the source (`click.core.Group` appearing in the
parameter list: it is matched by the same branch as `click.Option` and the
same attributes are read from it); `argument` is a `click.Argument`
(click arguments carry a default but no help text); `other` is any further
`click.Parameter` subclass, matched by neither branch of the source. -/
inductive Param where
  | option (name : String) (type : ParamType) (required : Bool)
      (default : Option Value) (help : Option String)
  | groupParam (name : String) (type : ParamType) (required : Bool)
      (default : Option Value) (help : Option String)
  | argument (name : String) (type : ParamType) (required : Bool)
      (default : Option Value)
  | other (name : String)
deriving DecidableEq, Repr

/-- `param.name`. -/
def Param.name : Param → String
  | .option n _ _ _ _ => n
  | .groupParam n _ _ _ _ => n
  | .argument n _ _ _ => n
  | .other n => n

/-- `param.default` (absent on the `other` variant). -/
def Param.default : Param → Option Value
  | .option _ _ _ d _ => d
  | .groupParam _ _ _ d _ => d
  | .argument _ _ _ d => d
  | .other _ => none

/-- Matched by `isinstance(param, (click.Option, click.core.Group))`. -/
def Param.isOptionLike : Param → Bool
  | .option _ _ _ _ _ => true
  | .groupParam _ _ _ _ _ => true
  | _ => false

/-- Matched by `isinstance(param, click.Argument)`. -/
def Param.isArgument : Param → Bool
  | .argument _ _ _ _ => true
  | _ => false

/-- A parameter matched by one of the two branches of the source. -/
def Param.classifiable (p : Param) : Bool := p.isOptionLike || p.isArgument

/-- Dataclass `OptionSchema` (field order as declared in the source). -/
structure OptionSchema where
  name : String
  type : String
  default : Option Value
  required : Bool
  help : Option String := none
  choices : Option (List String) := none
deriving DecidableEq, Repr

/-- Dataclass `ArgumentSchema` (field order as declared in the source). -/
structure ArgumentSchema where
  name : String
  type : String
  required : Bool
  default : Option Value := none
  choices : Option (List String) := none
deriving DecidableEq, Repr

/-- Dataclass `CommandSchema`, arena encoded: `subcommands` maps a name to the
index of the child node, `parent` is the index of the enclosing node. -/
structure CommandSchema where
  name : String
  function : Option Nat
  docstring : Option String
  options : List OptionSchema
  arguments : List ArgumentSchema
  subcommands : List (String × Nat)
  parent : Option Nat
deriving DecidableEq, Repr

/-- The input command tree: a `click.Command` (leaf) or a `click.Group`,
which additionally carries its ordered mapping of named children.  Python
callables are modelled by handles (`Option Nat`). -/
inductive ClickCommand where
  | command (help : Option String) (callback : Option Nat) (params : List Param)
  | group (help : Option String) (callback : Option Nat) (params : List Param)
      (commands : List (String × ClickCommand))

/-- `cmd_obj.help`. -/
def ClickCommand.help : ClickCommand → Option String
  | .command h _ _ => h
  | .group h _ _ _ => h

/-- `cmd_obj.callback`. -/
def ClickCommand.callback : ClickCommand → Option Nat
  | .command _ cb _ => cb
  | .group _ cb _ _ => cb

/-- `cmd_obj.params`. -/
def ClickCommand.params : ClickCommand → List Param
  | .command _ _ ps => ps
  | .group _ _ ps _ => ps

/-- `cmd_obj.commands` for a group; a plain command has no children. -/
def ClickCommand.commands : ClickCommand → List (String × ClickCommand)
  | .command _ _ _ => []
  | .group _ _ _ cs => cs

/-- The `OptionSchema(...)` construction of the source: records name, type
name, required flag, default and help; `choices` is left at its dataclass
default `None`. -/
def option_schema_of (n : String) (t : ParamType) (r : Bool)
    (d : Option Value) (h : Option String) : OptionSchema :=
  ⟨n, t.name, d, r, h, none⟩

/-- The `ArgumentSchema(...)` construction of the source: records name, type
name and required flag; `default` is left at its dataclass default `None`;
`choices` is then assigned exactly when the type is a `click.Choice`. -/
def argument_schema_of (n : String) (t : ParamType) (r : Bool) : ArgumentSchema :=
  ⟨n, t.name, r, none, match t with | .choice cs => some cs | .plain _ => none⟩

/-- The parameter loop of `process_command` (source lines 80 to 97): walks
`cmd_obj.params` in order, appending to the `options` and `arguments` lists;
a parameter matched by neither branch contributes to neither list. -/
def process_params : List Param → List OptionSchema × List ArgumentSchema
  | [] => ([], [])
  | .option n t r d h :: ps =>
      let rest := process_params ps
      (option_schema_of n t r d h :: rest.1, rest.2)
  | .groupParam n t r d h :: ps =>
      let rest := process_params ps
      (option_schema_of n t r d h :: rest.1, rest.2)
  | .argument n t r _ :: ps =>
      let rest := process_params ps
      (rest.1, argument_schema_of n t r :: rest.2)
  | .other _ :: ps => process_params ps

mutual

/-- `process_command` of the source.  The new node is allocated at index
`arena.length` (Python: the `CommandSchema` object is created first, with
empty `subcommands`); children are then processed with that index as their
`parent`, and finally the `subcommands` mapping of the node is filled in
(Python: mutation of `cmd_data.subcommands` during the loop). -/
def process_command (nm : String) (cmd : ClickCommand) (parent : Option Nat)
    (arena : List CommandSchema) : List CommandSchema × Nat :=
  match cmd with
  | .command h cb ps =>
      (arena ++ [⟨nm, cb, h, (process_params ps).1, (process_params ps).2, [], parent⟩],
        arena.length)
  | .group h cb ps cs =>
      let res := process_children cs arena.length
        (arena ++ [⟨nm, cb, h, (process_params ps).1, (process_params ps).2, [], parent⟩])
      (res.1.set arena.length
          ⟨nm, cb, h, (process_params ps).1, (process_params ps).2, res.2, parent⟩,
        arena.length)
termination_by sizeOf cmd

/-- The loop over `cmd_obj.commands.items()` of the source: each child is
processed with `parent` set to the enclosing node, and entered into the
`subcommands` mapping under its name. -/
def process_children (cs : List (String × ClickCommand)) (parentIdx : Nat)
    (arena : List CommandSchema) : List CommandSchema × List (String × Nat) :=
  match cs with
  | [] => (arena, [])
  | (n, c) :: rest =>
      let r1 := process_command n c (some parentIdx) arena
      let r2 := process_children rest parentIdx r1.1
      (r2.1, (n, r1.2) :: r2.2)
termination_by sizeOf cs

end

/-- The loop over `app.commands.items()` in `introspect_click_app`: top level
commands are processed with `parent=None`. -/
def introspect_aux (cs : List (String × ClickCommand)) (arena : List CommandSchema) :
    List CommandSchema × List (String × Nat) :=
  match cs with
  | [] => (arena, [])
  | (n, c) :: rest =>
      let r1 := process_command n c none arena
      let r2 := introspect_aux rest r1.1
      (r2.1, (n, r1.2) :: r2.2)

/-- `introspect_click_app` of the source: returns the arena of all created
nodes together with the top level name-to-index mapping. -/
def introspect_click_app (app : List (String × ClickCommand)) :
    List CommandSchema × List (String × Nat) :=
  introspect_aux app []

/-- The loop of `path_from_root`: walk the parent chain, accumulating the
root first order directly (Python appends and reverses at the end).  The
fuel argument bounds the number of steps; since every `parent` index is
strictly below the node index (proved below for every extracted arena),
fuel `i` is never exhausted, so this equals the Python `while` loop. -/
def path_aux (arena : List CommandSchema) : Nat → Nat → List Nat → List Nat
  | 0, i, acc => i :: acc
  | fuel+1, i, acc =>
      match (arena[i]?).bind CommandSchema.parent with
      | none => i :: acc
      | some p => path_aux arena fuel p (i :: acc)

/-- `CommandSchema.path_from_root` of the source, on arena indices. -/
def path_from_root (arena : List CommandSchema) (i : Nat) : List Nat :=
  path_aux arena i i []

/-- Number of steps of the parent chain walk (same fuel discipline as
`path_aux`). -/
def depth_aux (arena : List CommandSchema) : Nat → Nat → Nat
  | 0, _ => 0
  | fuel+1, i =>
      match (arena[i]?).bind CommandSchema.parent with
      | none => 0
      | some p => depth_aux arena fuel p + 1

/-- The depth of a node: the length of its parent chain. -/
def node_depth (arena : List CommandSchema) (i : Nat) : Nat :=
  depth_aux arena i i

/-- The pure nesting structure of a schema tree: names only, with named
children.  Used to compare the extracted arena against the input tree. -/
inductive SchemaTree where
  | mk (name : String) (subs : List (String × SchemaTree))

/-- Traverse a `subcommands` list, reading each named entry with `f`;
`none` as soon as one entry fails. -/
def subs_loop (f : Nat → Option SchemaTree) :
    List (String × Nat) → Option (List (String × SchemaTree))
  | [] => some []
  | (n, j) :: rest =>
      match f j, subs_loop f rest with
      | some t, some ts => some ((n, t) :: ts)
      | _, _ => none

/-- Read the nesting structure reachable from index `i` back out of the
arena.  Fuel bounds the recursion depth; `none` means a dangling index or
exhausted fuel (neither occurs on extracted arenas, proved below). -/
def readTree (arena : List CommandSchema) : Nat → Nat → Option SchemaTree
  | 0, _ => none
  | fuel+1, i =>
      match arena[i]? with
      | none => none
      | some node =>
          (subs_loop (fun j => readTree arena fuel j) node.subcommands).map
            (SchemaTree.mk node.name)

/-- Read each named subcommand entry at a given fuel level. -/
def readSubs (arena : List CommandSchema) (fuel : Nat)
    (l : List (String × Nat)) : Option (List (String × SchemaTree)) :=
  subs_loop (fun j => readTree arena fuel j) l

mutual

/-- Specification side description (from the spec text): the output
`subcommands` must mirror the nesting of the input tree, key for key, to
unbounded depth.  `spec_shape` is that nesting, computed from the input. -/
def spec_shape : String → ClickCommand → SchemaTree
  | nm, .command _ _ _ => .mk nm []
  | nm, .group _ _ _ cs => .mk nm (spec_shape_children cs)
termination_by nm cmd => sizeOf cmd

/-- Children of `spec_shape`, in declaration order. -/
def spec_shape_children : List (String × ClickCommand) → List (String × SchemaTree)
  | [] => []
  | (n, c) :: rest => (n, spec_shape n c) :: spec_shape_children rest
termination_by cs => sizeOf cs

end

/-- Child loop of the fuelled extractor, parameterized by the one level
deeper processor `f`; the fuel is not consumed by moving to a sibling, only
by descending a level. -/
def children_loop
    (f : String → ClickCommand → Option Nat → List CommandSchema →
      Option (List CommandSchema × Nat)) :
    List (String × ClickCommand) → Nat → List CommandSchema →
      Option (List CommandSchema × List (String × Nat))
  | [], _, arena => some (arena, [])
  | (n, c) :: rest, parentIdx, arena =>
      match f n c (some parentIdx) arena with
      | none => none
      | some r1 =>
          match children_loop f rest parentIdx r1.1 with
          | none => none
          | some r2 => some (r2.1, (n, r1.2) :: r2.2)

/-- `process_command` with an explicit recursion depth budget: one unit of
fuel is consumed per nesting level (siblings share the budget, exactly like
the Python call stack).  Returns `none` on fuel exhaustion. -/
def process_command_fuel : Nat → String → ClickCommand → Option Nat →
    List CommandSchema → Option (List CommandSchema × Nat)
  | 0, _, _, _, _ => none
  | fuel+1, nm, cmd, parent, arena =>
      match cmd with
      | .command h cb ps =>
          some (arena ++
              [⟨nm, cb, h, (process_params ps).1, (process_params ps).2, [], parent⟩],
            arena.length)
      | .group h cb ps cs =>
          match children_loop (fun n c p a => process_command_fuel fuel n c p a)
              cs arena.length
              (arena ++
                [⟨nm, cb, h, (process_params ps).1, (process_params ps).2, [], parent⟩]) with
          | none => none
          | some r =>
              some (r.1.set arena.length
                  ⟨nm, cb, h, (process_params ps).1, (process_params ps).2, r.2, parent⟩,
                arena.length)

/-- The fuelled child loop at a given fuel level. -/
def process_children_fuel (fuel : Nat) (cs : List (String × ClickCommand))
    (parentIdx : Nat) (arena : List CommandSchema) :
    Option (List CommandSchema × List (String × Nat)) :=
  children_loop (fun n c p a => process_command_fuel fuel n c p a) cs parentIdx arena

mutual

/-- The depth of the input tree: a leaf command has depth 1, a group is one
deeper than its deepest child (an empty group has depth 1). -/
def height : ClickCommand → Nat
  | .command _ _ _ => 1
  | .group _ _ _ cs => height_children cs + 1
termination_by cmd => sizeOf cmd

/-- Maximum of the heights of a child list. -/
def height_children : List (String × ClickCommand) → Nat
  | [] => 0
  | (_, c) :: rest => max (height c) (height_children rest)
termination_by cs => sizeOf cs

end

/-- Every `subcommands` entry of every node points at a node whose `parent`
is the containing node and whose `name` is the key it is stored under. -/
def Linked (arena : List CommandSchema) : Prop :=
  ∀ (j : Nat) (node : CommandSchema), arena[j]? = some node → ∀ p ∈ node.subcommands,
    ∃ child, arena[p.2]? = some child ∧ child.parent = some j ∧ child.name = p.1

/-- Subcommand indices point strictly above the containing node and stay
inside the arena. -/
def ChildAbove (arena : List CommandSchema) : Prop :=
  ∀ (j : Nat) (node : CommandSchema), arena[j]? = some node → ∀ p ∈ node.subcommands,
    j < p.2 ∧ p.2 < arena.length

/-- Parent indices point strictly below the node (so parent chains are
finite and acyclic). -/
def ParentBelow (arena : List CommandSchema) : Prop :=
  ∀ (j : Nat) (node : CommandSchema), arena[j]? = some node → ∀ q, node.parent = some q → q < j

/-- The well formedness invariant of extracted arenas. -/
def ArenaInv (arena : List CommandSchema) : Prop :=
  Linked arena ∧ ChildAbove arena ∧ ParentBelow arena

/-- A small concrete application used by the witnesses: a root group with an
option, a leaf subcommand with a positional argument, and an empty group. -/
def demo_app : List (String × ClickCommand) :=
  [("root", ClickCommand.group (some "root doc") (some 7)
      [Param.option "verbose" (ParamType.plain "bool") false (some (Value.vBool false)) none]
      [("sub", ClickCommand.command (some "sub doc") (some 8)
          [Param.argument "path" (ParamType.plain "text") true none]),
       ("emptygrp", ClickCommand.group none none [] [])])]

/-! ### Lemmas about the parameter classification loop -/

theorem process_params_options_names (ps : List Param) :
    (process_params ps).1.map OptionSchema.name =
      (ps.filter Param.isOptionLike).map Param.name := by
  induction ps with
  | nil => rfl
  | cons p ps ih =>
    cases p <;>
      simp [process_params, Param.isOptionLike, Param.name, option_schema_of,
        argument_schema_of, ih]

theorem process_params_arguments_names (ps : List Param) :
    (process_params ps).2.map ArgumentSchema.name =
      (ps.filter Param.isArgument).map Param.name := by
  induction ps with
  | nil => rfl
  | cons p ps ih =>
    cases p <;>
      simp [process_params, Param.isArgument, Param.name, option_schema_of,
        argument_schema_of, ih]

theorem process_params_length_split (ps : List Param) :
    (process_params ps).1.length = (ps.filter Param.isOptionLike).length ∧
    (process_params ps).2.length = (ps.filter Param.isArgument).length := by
  constructor
  · have h := congrArg List.length (process_params_options_names ps)
    simpa using h
  · have h := congrArg List.length (process_params_arguments_names ps)
    simpa using h

theorem process_params_length_sum (ps : List Param)
    (hv : ∀ p ∈ ps, p.classifiable = true) :
    (process_params ps).1.length + (process_params ps).2.length = ps.length := by
  induction ps with
  | nil => rfl
  | cons p ps ih =>
    have hp := hv p (List.mem_cons_self p ps)
    have ihs := ih (fun q hq => hv q (List.mem_cons_of_mem p hq))
    cases p with
    | option n t r d h => simp [process_params, ihs.symm]; omega
    | groupParam n t r d h => simp [process_params, ihs.symm]; omega
    | argument n t r d => simp [process_params, ihs.symm]; omega
    | other n => simp [Param.classifiable, Param.isOptionLike, Param.isArgument] at hp

theorem process_params_mem_option (ps : List Param) (n : String) (t : ParamType)
    (r : Bool) (d : Option Value) (h : Option String)
    (hmem : Param.option n t r d h ∈ ps) :
    option_schema_of n t r d h ∈ (process_params ps).1 := by
  induction ps with
  | nil => cases hmem
  | cons p ps ih =>
    rcases List.mem_cons.1 hmem with heq | htail
    · subst heq; simp [process_params]
    · cases p <;> simp [process_params, ih htail]

theorem process_params_mem_groupParam (ps : List Param) (n : String) (t : ParamType)
    (r : Bool) (d : Option Value) (h : Option String)
    (hmem : Param.groupParam n t r d h ∈ ps) :
    option_schema_of n t r d h ∈ (process_params ps).1 := by
  induction ps with
  | nil => cases hmem
  | cons p ps ih =>
    rcases List.mem_cons.1 hmem with heq | htail
    · subst heq; simp [process_params]
    · cases p <;> simp [process_params, ih htail]

theorem process_params_mem_argument (ps : List Param) (n : String) (t : ParamType)
    (r : Bool) (d : Option Value)
    (hmem : Param.argument n t r d ∈ ps) :
    argument_schema_of n t r ∈ (process_params ps).2 := by
  induction ps with
  | nil => cases hmem
  | cons p ps ih =>
    rcases List.mem_cons.1 hmem with heq | htail
    · subst heq; simp [process_params]
    · cases p <;> simp [process_params, ih htail]

theorem process_params_options_choices_none (ps : List Param) :
    ∀ o ∈ (process_params ps).1, o.choices = none := by
  induction ps with
  | nil => intro o ho; cases ho
  | cons p ps ih =>
    intro o ho
    cases p <;> simp [process_params, option_schema_of] at ho <;>
      first
        | exact ih o ho
        | rcases ho with rfl | ho
          · rfl
          · exact ih o ho

theorem process_params_arguments_default_none (ps : List Param) :
    ∀ a ∈ (process_params ps).2, a.default = none := by
  induction ps with
  | nil => intro a ha; cases ha
  | cons p ps ih =>
    intro a ha
    cases p <;> simp [process_params, argument_schema_of] at ha <;>
      first
        | exact ih a ha
        | rcases ha with rfl | ha
          · rfl
          · exact ih a ha

/-! ### Claim theorems about parameter classification -/

/-- C3: for every positional parameter of a command, the extracted
`ArgumentSchema` has `choices` present if and only if the declared type of
the parameter is a `click.Choice` (an enumeration of strings), and when
present it equals the full declared choice list in declared order. -/
theorem C3_argument_choices (ps : List Param) (n : String) (t : ParamType)
    (r : Bool) (d : Option Value)
    (hmem : Param.argument n t r d ∈ ps) :
    argument_schema_of n t r ∈ (process_params ps).2 ∧
    ((argument_schema_of n t r).choices.isSome = true ↔ t.isChoice = true) ∧
    (∀ cs, t = ParamType.choice cs → (argument_schema_of n t r).choices = some cs) := by
  refine ⟨process_params_mem_argument ps n t r d hmem, ?_, ?_⟩
  · cases t <;> simp [argument_schema_of, ParamType.isChoice]
  · intro cs hcs; subst hcs; rfl

/-- Witness for C3 at a concrete input: an argument of `Choice` type gets
exactly the declared choices, in order. -/
theorem C3_witness :
    argument_schema_of "mode" (ParamType.choice ["a", "b", "c"]) true ∈
      (process_params [Param.argument "mode" (ParamType.choice ["a", "b", "c"]) true none]).2 ∧
    ((argument_schema_of "mode" (ParamType.choice ["a", "b", "c"]) true).choices.isSome = true ↔
      (ParamType.choice ["a", "b", "c"]).isChoice = true) ∧
    (∀ cs, ParamType.choice ["a", "b", "c"] = ParamType.choice cs →
      (argument_schema_of "mode" (ParamType.choice ["a", "b", "c"]) true).choices = some cs) :=
  C3_argument_choices [Param.argument "mode" (ParamType.choice ["a", "b", "c"]) true none]
    "mode" (ParamType.choice ["a", "b", "c"]) true none (by decide)

/-- C4: every named/flag style parameter — a `click.Option`, or the quirk
variant where a `click.core.Group` sits in the parameter list — produces an
`OptionSchema` recording its name, resolved type name, required flag,
default value and help text; `ArgumentSchema` entries arise only from
positional parameters, so an option-like parameter never produces one. -/
theorem C4_option_schema (ps : List Param) (n : String) (t : ParamType)
    (r : Bool) (d : Option Value) (h : Option String)
    (hmem : Param.option n t r d h ∈ ps ∨ Param.groupParam n t r d h ∈ ps) :
    (∃ o ∈ (process_params ps).1, o.name = n ∧ o.type = t.name ∧
      o.required = r ∧ o.default = d ∧ o.help = h) ∧
    (process_params ps).2.map ArgumentSchema.name =
      (ps.filter Param.isArgument).map Param.name := by
  refine ⟨⟨option_schema_of n t r d h, ?_, rfl, rfl, rfl, rfl, rfl⟩,
    process_params_arguments_names ps⟩
  rcases hmem with hm | hm
  · exact process_params_mem_option ps n t r d h hm
  · exact process_params_mem_groupParam ps n t r d h hm

/-- Witness for C4 at a concrete input: the quirk variant (a group-like
entry in the parameter list) is classified as an option. -/
theorem C4_witness :
    (∃ o ∈ (process_params [Param.groupParam "sub" (ParamType.plain "text") false
        (some (Value.vStr "x")) (some "help me")]).1,
      o.name = "sub" ∧ o.type = (ParamType.plain "text").name ∧
      o.required = false ∧ o.default = some (Value.vStr "x") ∧ o.help = some "help me") ∧
    (process_params [Param.groupParam "sub" (ParamType.plain "text") false
        (some (Value.vStr "x")) (some "help me")]).2.map ArgumentSchema.name =
      ([Param.groupParam "sub" (ParamType.plain "text") false
        (some (Value.vStr "x")) (some "help me")].filter Param.isArgument).map Param.name :=
  C4_option_schema [Param.groupParam "sub" (ParamType.plain "text") false
      (some (Value.vStr "x")) (some "help me")]
    "sub" (ParamType.plain "text") false (some (Value.vStr "x")) (some "help me")
    (Or.inr (by decide))

/-- C5 counterexample: a parameter matched by neither classification branch
(modelling e.g. a bare `click.Parameter` subclass) is dropped silently: the
extractor returns an ordinary schema — there is no failure value in its
return type, so nothing names the offending command or parameter — and the
parameter appears in neither `options` nor `arguments`, even though the
input command declared one parameter.  This refutes the claim that a
descriptive failure is reported instead of silent truncation. -/
theorem C5_counterexample :
    (process_command "c" (ClickCommand.command none none [Param.other "mystery"]) none []).1 =
      [⟨"c", none, none, [], [], [], none⟩] ∧
    (ClickCommand.command none none [Param.other "mystery"]).params.length = 1 := by
  constructor
  · simp [process_command, process_params]
  · rfl

/-- C5 amended: extraction is total and reports no failures; a parameter
matching neither the option-like branch nor the argument branch is silently
dropped — the extracted `options` and `arguments` together account for
exactly the classifiable parameters, in order, and nothing else. -/
theorem C5_amended (ps : List Param) :
    (process_params ps).1.length + (process_params ps).2.length =
      (ps.filter Param.classifiable).length := by
  induction ps with
  | nil => rfl
  | cons p ps ih =>
    cases p <;>
      simp [process_params, Param.classifiable, Param.isOptionLike, Param.isArgument, ih] <;>
      omega

/-- C7 counterexample: a positional parameter with a declared default — here
`5` — still yields an `ArgumentSchema` whose `default` is absent, because
the source constructs `ArgumentSchema(name, type, required)` and never
passes the default through.  This refutes the claim that the extracted
default equals the declared one when a default is declared. -/
theorem C7_counterexample :
    (process_params [Param.argument "x" (ParamType.plain "integer") false
        (some (Value.vInt 5))]).2.map ArgumentSchema.default = [none] ∧
    (Param.argument "x" (ParamType.plain "integer") false
        (some (Value.vInt 5))).default = some (Value.vInt 5) :=
  ⟨rfl, rfl⟩

/-- C7 amended: the extracted `ArgumentSchema.default` is always absent,
whatever default the positional parameter declares (it stays at the
dataclass default `None`; only `OptionSchema.default` receives the declared
default). -/
theorem C7_amended (ps : List Param) :
    ∀ a ∈ (process_params ps).2, a.default = none :=
  process_params_arguments_default_none ps

/-- Witness for C7 (amended) at a concrete input. -/
theorem C7_witness :
    (argument_schema_of "x" (ParamType.plain "integer") false).default = none :=
  C7_amended [Param.argument "x" (ParamType.plain "integer") false (some (Value.vInt 5))]
    (argument_schema_of "x" (ParamType.plain "integer") false) (by decide)

/-- C10: the extractor never populates `choices` on an `OptionSchema`: the
`OptionSchema(...)` construction leaves `choices` at its dataclass default
`None` even when the option type is a `click.Choice`; only
`ArgumentSchema.choices` is ever assigned. -/
theorem C10_option_choices_none (ps : List Param) :
    ∀ o ∈ (process_params ps).1, o.choices = none :=
  process_params_options_choices_none ps

/-- Witness for C10 at a concrete input: an option of `Choice` type still
has absent `choices`. -/
theorem C10_witness :
    (option_schema_of "fmt" (ParamType.choice ["json", "text"]) false none none).choices =
      none :=
  C10_option_choices_none
    [Param.option "fmt" (ParamType.choice ["json", "text"]) false none none]
    (option_schema_of "fmt" (ParamType.choice ["json", "text"]) false none none) (by decide)

/-! ### Structure of the arena produced by `process_command` -/

theorem process_command_idx (nm : String) (cmd : ClickCommand) (parent : Option Nat)
    (arena : List CommandSchema) :
    (process_command nm cmd parent arena).2 = arena.length := by
  cases cmd <;> simp [process_command]

mutual

theorem process_command_spec (nm : String) (cmd : ClickCommand) (parent : Option Nat)
    (arena : List CommandSchema) :
    arena.length < (process_command nm cmd parent arena).1.length ∧
    (∀ j : Nat, j < arena.length →
      (process_command nm cmd parent arena).1[j]? = arena[j]?) ∧
    ∃ node, (process_command nm cmd parent arena).1[arena.length]? = some node ∧
      node.name = nm ∧ node.parent = parent ∧ node.function = cmd.callback ∧
      node.docstring = cmd.help ∧ node.options = (process_params cmd.params).1 ∧
      node.arguments = (process_params cmd.params).2 ∧
      node.subcommands.map Prod.fst = cmd.commands.map Prod.fst ∧
      ∀ p ∈ node.subcommands, arena.length < p.2 ∧
        p.2 < (process_command nm cmd parent arena).1.length ∧
        ∃ child, (process_command nm cmd parent arena).1[p.2]? = some child ∧
          child.parent = some arena.length ∧ child.name = p.1 := by
  cases cmd with
  | command h cb ps =>
      refine ⟨?_, ?_, ?_⟩
      · simp [process_command]
      · intro j hj
        simp only [process_command]
        exact List.getElem?_append_left hj
      · refine ⟨⟨nm, cb, h, (process_params ps).1, (process_params ps).2, [], parent⟩,
          ?_, rfl, rfl, rfl, rfl, rfl, rfl, by simp [ClickCommand.commands], ?_⟩
        · simp only [process_command]
          exact List.getElem?_concat_length _ _
        · intro p hp
          simp at hp
  | group h cb ps cs =>
      obtain ⟨hlen, hpre, hfst, hmem⟩ := process_children_spec cs arena.length
        (arena ++ [⟨nm, cb, h, (process_params ps).1, (process_params ps).2, [], parent⟩])
      simp only [List.length_append, List.length_cons, List.length_nil] at hlen hpre hmem
      refine ⟨?_, ?_, ?_⟩
      · simp only [process_command, List.length_set]
        omega
      · intro j hj
        simp only [process_command]
        rw [List.getElem?_set_ne (by omega), hpre j (by omega),
          List.getElem?_append_left hj]
      · refine ⟨⟨nm, cb, h, (process_params ps).1, (process_params ps).2,
          (process_children cs arena.length
            (arena ++ [⟨nm, cb, h, (process_params ps).1, (process_params ps).2, [],
              parent⟩])).2, parent⟩, ?_, rfl, rfl, rfl, rfl, rfl, rfl,
          by simpa [ClickCommand.commands] using hfst, ?_⟩
        · simp only [process_command]
          exact List.getElem?_set_eq_of_lt _ (by omega)
        · intro p hp
          obtain ⟨hp1, hp2, child, hchild, hcp, hcn⟩ := hmem p hp
          refine ⟨by omega, ?_, child, ?_, hcp, hcn⟩
          · simp only [process_command, List.length_set]
            omega
          · simp only [process_command]
            rw [List.getElem?_set_ne (by omega)]
            exact hchild
termination_by sizeOf cmd

theorem process_children_spec (cs : List (String × ClickCommand)) (parentIdx : Nat)
    (arena : List CommandSchema) :
    arena.length ≤ (process_children cs parentIdx arena).1.length ∧
    (∀ j : Nat, j < arena.length →
      (process_children cs parentIdx arena).1[j]? = arena[j]?) ∧
    (process_children cs parentIdx arena).2.map Prod.fst = cs.map Prod.fst ∧
    ∀ p ∈ (process_children cs parentIdx arena).2,
      arena.length ≤ p.2 ∧ p.2 < (process_children cs parentIdx arena).1.length ∧
      ∃ child, (process_children cs parentIdx arena).1[p.2]? = some child ∧
        child.parent = some parentIdx ∧ child.name = p.1 := by
  cases cs with
  | nil =>
      refine ⟨?_, ?_, ?_, ?_⟩ <;> simp [process_children]
  | cons hd rest =>
      obtain ⟨n, c⟩ := hd
      obtain ⟨hlt, hpre1, node, hnode, hname, hparent, _, _, _, _, _, _⟩ :=
        process_command_spec n c (some parentIdx) arena
      have hidx := process_command_idx n c (some parentIdx) arena
      obtain ⟨hlen2, hpre2, hfst2, hmem2⟩ :=
        process_children_spec rest parentIdx (process_command n c (some parentIdx) arena).1
      refine ⟨?_, ?_, ?_, ?_⟩
      · simp only [process_children]
        omega
      · intro j hj
        simp only [process_children]
        rw [hpre2 j (by omega), hpre1 j hj]
      · simp only [process_children, List.map_cons]
        rw [hfst2]
      · intro p hp
        simp only [process_children] at hp
        rcases List.mem_cons.1 hp with heq | htail
        · subst heq
          refine ⟨by simp [hidx], by simp only [process_children, hidx]; omega,
            node, ?_, hparent, hname⟩
          simp only [process_children, hidx]
          rw [hpre2 arena.length (by omega)]
          exact hnode
        · obtain ⟨hq1, hq2, child, hchild, hcp, hcn⟩ := hmem2 p htail
          refine ⟨by omega, ?_, child, ?_, hcp, hcn⟩
          · simp only [process_children]
            exact hq2
          · simp only [process_children]
            exact hchild
termination_by sizeOf cs

end

/-! ### The well formedness invariant is established by extraction -/

theorem lookup_append_cases (arena : List CommandSchema) (node x : CommandSchema)
    (j : Nat) (h : (arena ++ [node])[j]? = some x) :
    (j < arena.length ∧ arena[j]? = some x) ∨ (j = arena.length ∧ x = node) := by
  rcases Nat.lt_trichotomy j arena.length with hj | hj | hj
  · left
    exact ⟨hj, by rwa [List.getElem?_append_left hj] at h⟩
  · right
    subst hj
    rw [List.getElem?_concat_length] at h
    injection h with h
    exact ⟨rfl, h.symm⟩
  · exfalso
    rw [List.getElem?_eq_none_iff.mpr (by simp; omega)] at h
    exact Option.noConfusion h

theorem lookup_set_cases (arena : List CommandSchema) (k : Nat) (x : CommandSchema)
    (j : Nat) (y : CommandSchema) (h : (arena.set k x)[j]? = some y) :
    (j ≠ k ∧ arena[j]? = some y) ∨ (j = k ∧ y = x ∧ k < arena.length) := by
  by_cases hk : j = k
  · subst hk
    right
    have hlt : j < arena.length := by
      by_contra hge
      rw [List.getElem?_eq_none_iff.mpr (by simp; omega)] at h
      exact Option.noConfusion h
    rw [List.getElem?_set_eq_of_lt _ hlt] at h
    injection h with h
    exact ⟨rfl, h.symm, hlt⟩
  · left
    exact ⟨hk, by rwa [List.getElem?_set_ne (Ne.symm hk)] at h⟩

theorem arenaInv_nil : ArenaInv [] := by
  refine ⟨?_, ?_, ?_⟩ <;> intro j nd hnd <;> simp at hnd

theorem arenaInv_append (arena : List CommandSchema) (hinv : ArenaInv arena)
    (node : CommandSchema) (hsub : node.subcommands = [])
    (hpar : ∀ q, node.parent = some q → q < arena.length) :
    ArenaInv (arena ++ [node]) := by
  obtain ⟨hL, hC, hP⟩ := hinv
  refine ⟨?_, ?_, ?_⟩
  · intro j nd hnd p hp
    rcases lookup_append_cases arena node nd j hnd with ⟨hj, hold⟩ | ⟨hj, rfl⟩
    · obtain ⟨child, hc1, hc2, hc3⟩ := hL j nd hold p hp
      obtain ⟨hb1, hb2⟩ := hC j nd hold p hp
      exact ⟨child, by rw [List.getElem?_append_left hb2]; exact hc1, hc2, hc3⟩
    · rw [hsub] at hp
      cases hp
  · intro j nd hnd p hp
    rcases lookup_append_cases arena node nd j hnd with ⟨hj, hold⟩ | ⟨hj, rfl⟩
    · obtain ⟨hb1, hb2⟩ := hC j nd hold p hp
      exact ⟨hb1, by simp; omega⟩
    · rw [hsub] at hp
      cases hp
  · intro j nd hnd q hq
    rcases lookup_append_cases arena node nd j hnd with ⟨hj, hold⟩ | ⟨hj, rfl⟩
    · exact hP j nd hold q hq
    · subst hj
      exact hpar q hq

theorem arenaInv_set_step (A2 : List CommandSchema) (k : Nat) (node1 : CommandSchema)
    (hinvC : ArenaInv A2)
    (horig : ∀ (j : Nat) (nd : CommandSchema), j < k → A2[j]? = some nd →
      ∀ p ∈ nd.subcommands, p.2 < k)
    (hsubs : ∀ p ∈ node1.subcommands, k < p.2 ∧ p.2 < A2.length ∧
      ∃ child, A2[p.2]? = some child ∧ child.parent = some k ∧ child.name = p.1)
    (hpar : ∀ q, node1.parent = some q → q < k) :
    ArenaInv (A2.set k node1) := by
  obtain ⟨hL, hC, hP⟩ := hinvC
  refine ⟨?_, ?_, ?_⟩
  · intro j nd hnd p hp
    rcases lookup_set_cases A2 k node1 j nd hnd with ⟨hjk, hold⟩ | ⟨rfl, rfl, hklt⟩
    · obtain ⟨child, hc1, hc2, hc3⟩ := hL j nd hold p hp
      obtain ⟨hb1, hb2⟩ := hC j nd hold p hp
      have hne : p.2 ≠ k := by
        rcases Nat.lt_or_ge j k with hjlt | hjge
        · have := horig j nd hjlt hold p hp
          omega
        · omega
      exact ⟨child, by rw [List.getElem?_set_ne (Ne.symm hne)]; exact hc1, hc2, hc3⟩
    · obtain ⟨hb1, hb2, child, hc1, hc2, hc3⟩ := hsubs p hp
      exact ⟨child, by rw [List.getElem?_set_ne (by omega)]; exact hc1, hc2, hc3⟩
  · intro j nd hnd p hp
    rcases lookup_set_cases A2 k node1 j nd hnd with ⟨hjk, hold⟩ | ⟨rfl, rfl, hklt⟩
    · obtain ⟨hb1, hb2⟩ := hC j nd hold p hp
      exact ⟨hb1, by simpa using hb2⟩
    · obtain ⟨hb1, hb2, _⟩ := hsubs p hp
      exact ⟨hb1, by simpa using hb2⟩
  · intro j nd hnd q hq
    rcases lookup_set_cases A2 k node1 j nd hnd with ⟨hjk, hold⟩ | ⟨rfl, rfl, hklt⟩
    · exact hP j nd hold q hq
    · exact hpar q hq

mutual

theorem process_command_inv (nm : String) (cmd : ClickCommand) (parent : Option Nat)
    (arena : List CommandSchema)
    (hp : ∀ q, parent = some q → q < arena.length) (hinv : ArenaInv arena) :
    ArenaInv (process_command nm cmd parent arena).1 := by
  cases cmd with
  | command h cb ps =>
      simp only [process_command]
      exact arenaInv_append arena hinv _ rfl hp
  | group h cb ps cs =>
      have hinv1 : ArenaInv (arena ++
          [(⟨nm, cb, h, (process_params ps).1, (process_params ps).2, [], parent⟩ :
            CommandSchema)]) :=
        arenaInv_append arena hinv _ rfl hp
      obtain ⟨hlen, hpre, hfst, hmem⟩ := process_children_spec cs arena.length
        (arena ++ [⟨nm, cb, h, (process_params ps).1, (process_params ps).2, [], parent⟩])
      have hinvC := process_children_inv cs arena.length
        (arena ++ [⟨nm, cb, h, (process_params ps).1, (process_params ps).2, [], parent⟩])
        (by simp) hinv1
      simp only [List.length_append, List.length_cons, List.length_nil] at hlen hpre hmem
      simp only [process_command]
      refine arenaInv_set_step _ arena.length _ hinvC ?_ ?_ ?_
      · intro j nd hj hold p hp2
        have e1 := hpre j (by omega)
        have e2 : (arena ++ [(⟨nm, cb, h, (process_params ps).1, (process_params ps).2,
            [], parent⟩ : CommandSchema)])[j]? = arena[j]? :=
          List.getElem?_append_left hj
        rw [e1, e2] at hold
        exact (hinv.2.1 j nd hold p hp2).2
      · intro p hp2
        obtain ⟨hb1, hb2, child, hc1, hc2, hc3⟩ := hmem p hp2
        exact ⟨by omega, hb2, child, hc1, hc2, hc3⟩
      · exact hp
termination_by sizeOf cmd

theorem process_children_inv (cs : List (String × ClickCommand)) (parentIdx : Nat)
    (arena : List CommandSchema)
    (hpi : parentIdx < arena.length) (hinv : ArenaInv arena) :
    ArenaInv (process_children cs parentIdx arena).1 := by
  cases cs with
  | nil =>
      simpa only [process_children] using hinv
  | cons hd rest =>
      obtain ⟨n, c⟩ := hd
      have hinv1 := process_command_inv n c (some parentIdx) arena
        (fun q hq => by injection hq with hq; omega) hinv
      obtain ⟨hlt, _, _⟩ := process_command_spec n c (some parentIdx) arena
      have hinv2 := process_children_inv rest parentIdx
        (process_command n c (some parentIdx) arena).1 (by omega) hinv1
      simpa only [process_children] using hinv2
termination_by sizeOf cs

end

/-! ### Top level extraction -/

theorem forall₂_mem_left {α β : Type} {R : α → β → Prop} :
    ∀ {l₁ : List α} {l₂ : List β}, List.Forall₂ R l₁ l₂ → ∀ a ∈ l₁, ∃ b ∈ l₂, R a b := by
  intro l₁ l₂ hF
  induction hF with
  | nil =>
      intro a ha
      cases ha
  | cons hr _ ih =>
      intro a ha
      rcases List.mem_cons.1 ha with rfl | ha
      · exact ⟨_, List.mem_cons_self _ _, hr⟩
      · obtain ⟨b, hb, hrb⟩ := ih a ha
        exact ⟨b, List.mem_cons_of_mem _ hb, hrb⟩

theorem introspect_aux_spec (cs : List (String × ClickCommand)) (arena : List CommandSchema)
    (hinv : ArenaInv arena) :
    ArenaInv (introspect_aux cs arena).1 ∧
    arena.length ≤ (introspect_aux cs arena).1.length ∧
    (∀ j : Nat, j < arena.length → (introspect_aux cs arena).1[j]? = arena[j]?) ∧
    (introspect_aux cs arena).2.map Prod.fst = cs.map Prod.fst ∧
    List.Forall₂ (fun (p : String × Nat) (q : String × ClickCommand) =>
      p.1 = q.1 ∧ arena.length ≤ p.2 ∧ p.2 < (introspect_aux cs arena).1.length ∧
      ∃ node, (introspect_aux cs arena).1[p.2]? = some node ∧ node.parent = none ∧
        node.name = p.1 ∧ node.function = q.2.callback ∧ node.docstring = q.2.help ∧
        node.options = (process_params q.2.params).1 ∧
        node.arguments = (process_params q.2.params).2 ∧
        node.subcommands.map Prod.fst = q.2.commands.map Prod.fst)
      (introspect_aux cs arena).2 cs := by
  induction cs generalizing arena with
  | nil =>
      refine ⟨hinv, Nat.le_refl _, fun j hj => rfl, rfl, ?_⟩
      simp only [introspect_aux]
      exact List.Forall₂.nil
  | cons hd rest ih =>
      obtain ⟨n, c⟩ := hd
      obtain ⟨hlt, hpre1, node, hnode, hname, hparent, hfun, hdoc, hopt, harg, hsubfst, _⟩ :=
        process_command_spec n c none arena
      have hidx := process_command_idx n c none arena
      have hinv1 := process_command_inv n c none arena
        (fun q hq => Option.noConfusion hq) hinv
      obtain ⟨hinv2, hlen2, hpre2, hfst2, hF2⟩ :=
        ih (process_command n c none arena).1 hinv1
      simp only [introspect_aux]
      refine ⟨hinv2, by omega, ?_, ?_, ?_⟩
      · intro j hj
        rw [hpre2 j (by omega), hpre1 j hj]
      · simp only [List.map_cons]
        rw [hfst2]
      · refine List.Forall₂.cons ⟨rfl, ?_, ?_, node, ?_, hparent, ?_, hfun, hdoc, hopt,
          harg, hsubfst⟩ ?_
        · omega
        · omega
        · rw [hidx, hpre2 arena.length (by omega)]
          exact hnode
        · rw [hidx]
          exact hname
        · refine List.Forall₂.imp ?_ hF2
          intro p q hr
          exact ⟨hr.1, by omega, hr.2.2⟩

/-! ### Claim theorems about the assembled tree -/

/-- C1: in every extracted schema tree, each node reachable through a
`subcommands` mapping has `parent` pointing at exactly the node containing
it, and sits in that mapping under its own `name`; the top level schemas
have absent `parent`. -/
theorem C1_parent_backrefs (app : List (String × ClickCommand)) :
    (∀ (j : Nat) (s : CommandSchema), (introspect_click_app app).1[j]? = some s →
      ∀ p ∈ s.subcommands, ∃ c, (introspect_click_app app).1[p.2]? = some c ∧
        c.parent = some j ∧ c.name = p.1) ∧
    (∀ p ∈ (introspect_click_app app).2, ∃ s, (introspect_click_app app).1[p.2]? = some s ∧
      s.parent = none ∧ s.name = p.1) := by
  obtain ⟨⟨hL, _, _⟩, _, _, _, hF⟩ := introspect_aux_spec app [] arenaInv_nil
  refine ⟨hL, ?_⟩
  intro p hp
  obtain ⟨q, _, _, _, _, node, hnode, hpar, hname, _⟩ := forall₂_mem_left hF p hp
  exact ⟨node, hnode, hpar, hname⟩

/-- Witness for C1 at the concrete `demo_app`: the child stored under
`"sub"` at index 1 has `parent = some 0` (the root node that contains it)
and name `"sub"`; the top level entry has absent parent. -/
theorem C1_witness :
    (∃ c, (introspect_click_app demo_app).1[1]? = some c ∧
      c.parent = some 0 ∧ c.name = "sub") ∧
    (∃ s, (introspect_click_app demo_app).1[0]? = some s ∧
      s.parent = none ∧ s.name = "root") := by
  have h := C1_parent_backrefs demo_app
  constructor
  · refine h.1 0 ⟨"root", some 7, some "root doc",
      [option_schema_of "verbose" (ParamType.plain "bool") false
        (some (Value.vBool false)) none], [], [("sub", 1), ("emptygrp", 2)], none⟩
      ?_ ("sub", 1) ?_
    · simp [demo_app, introspect_click_app, introspect_aux, process_command,
        process_children, process_params, option_schema_of]
    · simp
  · exact h.2 ("root", 0) (by
      simp [demo_app, introspect_click_app, introspect_aux, process_command,
        process_children, process_params])

/-- C2: for every command whose parameters all match one of the two
classification branches (every valid click command: its parameters are
options or arguments), the extracted node's `options` and `arguments`
partition the declared parameter list: the lengths add up to the number of
declared parameters, and each list carries exactly the names of the
parameters of its classification, in declared order. -/
theorem C2_params_partition (nm : String) (cmd : ClickCommand) (parent : Option Nat)
    (arena : List CommandSchema)
    (hv : ∀ p ∈ cmd.params, p.classifiable = true) :
    ∃ node, (process_command nm cmd parent arena).1[(process_command nm cmd parent
        arena).2]? = some node ∧
      node.options.length + node.arguments.length = cmd.params.length ∧
      node.options.map OptionSchema.name =
        (cmd.params.filter Param.isOptionLike).map Param.name ∧
      node.arguments.map ArgumentSchema.name =
        (cmd.params.filter Param.isArgument).map Param.name := by
  obtain ⟨_, _, node, hnode, _, _, _, _, hopt, harg, _, _⟩ :=
    process_command_spec nm cmd parent arena
  rw [process_command_idx]
  refine ⟨node, hnode, ?_, ?_, ?_⟩
  · rw [hopt, harg]
    exact process_params_length_sum _ hv
  · rw [hopt]
    exact process_params_options_names _
  · rw [harg]
    exact process_params_arguments_names _

/-- Witness for C2 at a concrete command with one option and one argument. -/
theorem C2_witness :
    ∃ node, (process_command "sub" (ClickCommand.command (some "sub doc") (some 8)
        [Param.argument "path" (ParamType.plain "text") true none,
         Param.option "n" (ParamType.plain "int") false none none]) none []).1[
        (process_command "sub" (ClickCommand.command (some "sub doc") (some 8)
        [Param.argument "path" (ParamType.plain "text") true none,
         Param.option "n" (ParamType.plain "int") false none none]) none []).2]? =
        some node ∧
      node.options.length + node.arguments.length =
        (ClickCommand.command (some "sub doc") (some 8)
          [Param.argument "path" (ParamType.plain "text") true none,
           Param.option "n" (ParamType.plain "int") false none none]).params.length ∧
      node.options.map OptionSchema.name =
        ((ClickCommand.command (some "sub doc") (some 8)
          [Param.argument "path" (ParamType.plain "text") true none,
           Param.option "n" (ParamType.plain "int") false none none]).params.filter
            Param.isOptionLike).map Param.name ∧
      node.arguments.map ArgumentSchema.name =
        ((ClickCommand.command (some "sub doc") (some 8)
          [Param.argument "path" (ParamType.plain "text") true none,
           Param.option "n" (ParamType.plain "int") false none none]).params.filter
            Param.isArgument).map Param.name :=
  C2_params_partition "sub" (ClickCommand.command (some "sub doc") (some 8)
      [Param.argument "path" (ParamType.plain "text") true none,
       Param.option "n" (ParamType.plain "int") false none none]) none []
    (by decide)

/-! ### The parent chain walk -/

theorem path_aux_append (arena : List CommandSchema) :
    ∀ (fuel i : Nat) (acc : List Nat),
      path_aux arena fuel i acc = path_aux arena fuel i [] ++ acc := by
  intro fuel
  induction fuel with
  | zero =>
      intro i acc
      simp [path_aux]
  | succ f ih =>
      intro i acc
      cases hpar : (arena[i]?).bind CommandSchema.parent with
      | none => simp [path_aux, hpar]
      | some p =>
          simp only [path_aux, hpar]
          rw [ih p (i :: acc), ih p [i], List.append_assoc]
          simp

theorem depth_aux_eq (arena : List CommandSchema) (hPB : ParentBelow arena) :
    ∀ i : Nat, ∀ fuel, i ≤ fuel → depth_aux arena fuel i = node_depth arena i := by
  intro i
  induction i using Nat.strong_induction_on with
  | _ i ih =>
      intro fuel hfuel
      cases hpar : (arena[i]?).bind CommandSchema.parent with
      | none =>
          cases fuel with
          | zero =>
              have : i = 0 := by omega
              subst this
              rfl
          | succ f =>
              cases i with
              | zero => simp [node_depth, depth_aux, hpar]
              | succ i' => simp [node_depth, depth_aux, hpar]
      | some p =>
          obtain ⟨nd, hnd, hndp⟩ := Option.bind_eq_some.1 hpar
          have hpi : p < i := hPB i nd hnd p hndp
          obtain ⟨i', rfl⟩ : ∃ i', i = i' + 1 := ⟨i - 1, by omega⟩
          obtain ⟨f, rfl⟩ : ∃ f, fuel = f + 1 := ⟨fuel - 1, by omega⟩
          simp only [node_depth, depth_aux, hpar]
          rw [ih p (by omega) f (by omega), ih p (by omega) i' (by omega)]

theorem node_depth_of_parent_none (arena : List CommandSchema) (i : Nat)
    (h : (arena[i]?).bind CommandSchema.parent = none) : node_depth arena i = 0 := by
  cases i with
  | zero => rfl
  | succ i' => simp [node_depth, depth_aux, h]

theorem path_spec (arena : List CommandSchema) (hPB : ParentBelow arena) :
    ∀ i : Nat, i < arena.length → ∀ fuel, i ≤ fuel →
      path_aux arena fuel i [] ≠ [] ∧
      (path_aux arena fuel i []).getLast? = some i ∧
      (∃ r, (path_aux arena fuel i []).head? = some r ∧
        (arena[r]?).bind CommandSchema.parent = none) ∧
      List.Chain' (fun a b => (arena[b]?).bind CommandSchema.parent = some a)
        (path_aux arena fuel i []) ∧
      (path_aux arena fuel i []).length = node_depth arena i + 1 ∧
      (∀ j ∈ path_aux arena fuel i [], j < arena.length) := by
  intro i
  induction i using Nat.strong_induction_on with
  | _ i ih =>
      intro hi fuel hfuel
      cases hpar : (arena[i]?).bind CommandSchema.parent with
      | none =>
          have hpath : path_aux arena fuel i [] = [i] := by
            cases fuel with
            | zero => rfl
            | succ f => simp [path_aux, hpar]
          rw [hpath]
          refine ⟨by simp, by simp, ⟨i, by simp, hpar⟩, by simp, ?_, by simpa using hi⟩
          simp [node_depth_of_parent_none arena i hpar]
      | some p =>
          obtain ⟨nd, hnd, hndp⟩ := Option.bind_eq_some.1 hpar
          have hpi : p < i := hPB i nd hnd p hndp
          obtain ⟨f, rfl⟩ : ∃ f, fuel = f + 1 := ⟨fuel - 1, by omega⟩
          have hpath : path_aux arena (f + 1) i [] = path_aux arena f p [] ++ [i] := by
            simp only [path_aux, hpar]
            exact path_aux_append arena f p [i]
          obtain ⟨hne, hlast, ⟨r, hr, hrnone⟩, hchain, hlen, hmem⟩ :=
            ih p hpi (by omega) f (by omega)
          rw [hpath]
          refine ⟨by simp, List.getLast?_concat _, ⟨r, ?_, hrnone⟩, ?_, ?_, ?_⟩
          · rw [List.head?_append, hr]
            rfl
          · rw [List.chain'_append]
            refine ⟨hchain, List.chain'_singleton i, ?_⟩
            intro x hx y hy
            rw [hlast] at hx
            simp at hx hy
            subst hx
            subst hy
            exact hpar
          · have hdepth : node_depth arena i = node_depth arena p + 1 := by
              obtain ⟨i', rfl⟩ : ∃ i', i = i' + 1 := ⟨i - 1, by omega⟩
              simp only [node_depth, depth_aux, hpar]
              rw [depth_aux_eq arena hPB p i' (by omega)]
              rfl
            simp only [List.length_append, List.length_cons, List.length_nil, hlen, hdepth]
          · intro j hj
            rcases List.mem_append.1 hj with hj | hj
            · exact hmem j hj
            · simp at hj
              subst hj
              exact hi

/-- C6: for every node of an extracted schema tree, `path_from_root` is a
nonempty root first sequence: its first element is a node with absent
`parent`, its last element is the queried node itself, consecutive elements
are linked parent to child, and its length is the queried node's depth plus
one. -/
theorem C6_path_from_root (app : List (String × ClickCommand)) (i : Nat)
    (hi : i < (introspect_click_app app).1.length) :
    path_from_root (introspect_click_app app).1 i ≠ [] ∧
    (path_from_root (introspect_click_app app).1 i).getLast? = some i ∧
    (∃ r, (path_from_root (introspect_click_app app).1 i).head? = some r ∧
      ((introspect_click_app app).1[r]?).bind CommandSchema.parent = none) ∧
    List.Chain' (fun a b =>
      (((introspect_click_app app).1[b]?).bind CommandSchema.parent) = some a)
      (path_from_root (introspect_click_app app).1 i) ∧
    (path_from_root (introspect_click_app app).1 i).length =
      node_depth (introspect_click_app app).1 i + 1 := by
  have hPB : ParentBelow (introspect_click_app app).1 :=
    (introspect_aux_spec app [] arenaInv_nil).1.2.2
  obtain ⟨h1, h2, h3, h4, h5, _⟩ :=
    path_spec (introspect_click_app app).1 hPB i hi i (Nat.le_refl i)
  exact ⟨h1, h2, h3, h4, h5⟩

/-- Witness for C6 at the concrete `demo_app`, querying the node at index 1
(the `"sub"` subcommand): its path is root first, ends at 1, and has length
equal to depth 1 plus one. -/
theorem C6_witness :
    path_from_root (introspect_click_app demo_app).1 1 ≠ [] ∧
    (path_from_root (introspect_click_app demo_app).1 1).getLast? = some 1 ∧
    (∃ r, (path_from_root (introspect_click_app demo_app).1 1).head? = some r ∧
      ((introspect_click_app demo_app).1[r]?).bind CommandSchema.parent = none) ∧
    List.Chain' (fun a b =>
      (((introspect_click_app demo_app).1[b]?).bind CommandSchema.parent) = some a)
      (path_from_root (introspect_click_app demo_app).1 1) ∧
    (path_from_root (introspect_click_app demo_app).1 1).length =
      node_depth (introspect_click_app demo_app).1 1 + 1 :=
  C6_path_from_root demo_app 1 (by
    simp [demo_app, introspect_click_app, introspect_aux, process_command,
      process_children, process_params])

/-! ### Reading the nesting structure back out of the arena -/

theorem subs_loop_push_mem (f g : Nat → Option SchemaTree) :
    ∀ (l : List (String × Nat)),
      (∀ p ∈ l, ∀ t, f p.2 = some t → g p.2 = some t) →
      ∀ ts, subs_loop f l = some ts → subs_loop g l = some ts := by
  intro l
  induction l with
  | nil =>
      intro _ ts h
      simpa [subs_loop] using h
  | cons hd rest ih =>
      intro hf ts h
      obtain ⟨n, j⟩ := hd
      cases hft : f j with
      | none => simp [subs_loop, hft] at h
      | some t =>
          cases hrest : subs_loop f rest with
          | none => simp [subs_loop, hft, hrest] at h
          | some ts' =>
              simp only [subs_loop, hft, hrest] at h
              have hg1 : g j = some t := hf (n, j) (by simp) t hft
              have hg2 : subs_loop g rest = some ts' :=
                ih (fun p hp => hf p (List.mem_cons_of_mem _ hp)) ts' hrest
              simp only [subs_loop, hg1, hg2]
              exact h

theorem readTree_mono (arena : List CommandSchema) :
    ∀ (f g i : Nat) (t : SchemaTree), f ≤ g →
      readTree arena f i = some t → readTree arena g i = some t := by
  intro f
  induction f with
  | zero =>
      intro g i t _ h
      simp [readTree] at h
  | succ f ih =>
      intro g i t hfg h
      obtain ⟨g', rfl⟩ : ∃ g', g = g' + 1 := ⟨g - 1, by omega⟩
      simp only [readTree] at h ⊢
      cases hai : arena[i]? with
      | none => rw [hai] at h; cases h
      | some node =>
          rw [hai] at h
          rw [Option.map_eq_some'] at h
          obtain ⟨ts, hts, rfl⟩ := h
          rw [Option.map_eq_some']
          exact ⟨ts, subs_loop_push_mem _ _ node.subcommands
            (fun p _ u hu => ih g' p.2 u (by omega) hu) ts hts, rfl⟩

theorem readTree_set_of_above (arena : List CommandSchema) (hCA : ChildAbove arena)
    (k : Nat) (x : CommandSchema) :
    ∀ (f i : Nat) (t : SchemaTree), k < i → readTree arena f i = some t →
      readTree (arena.set k x) f i = some t := by
  intro f
  induction f with
  | zero =>
      intro i t _ h
      simp [readTree] at h
  | succ f ih =>
      intro i t hki h
      simp only [readTree] at h ⊢
      cases hai : arena[i]? with
      | none => rw [hai] at h; cases h
      | some node =>
          rw [hai] at h
          rw [List.getElem?_set_ne (by omega), hai]
          rw [Option.map_eq_some'] at h
          obtain ⟨ts, hts, rfl⟩ := h
          rw [Option.map_eq_some']
          refine ⟨ts, subs_loop_push_mem _ _ node.subcommands ?_ ts hts, rfl⟩
          intro p hp u hu
          have := hCA i node hai p hp
          exact ih p.2 u (by omega) hu

theorem readTree_extend (A B : List CommandSchema) (hCA : ChildAbove A)
    (hpre : ∀ j : Nat, j < A.length → B[j]? = A[j]?) :
    ∀ (f i : Nat) (t : SchemaTree), i < A.length → readTree A f i = some t →
      readTree B f i = some t := by
  intro f
  induction f with
  | zero =>
      intro i t _ h
      simp [readTree] at h
  | succ f ih =>
      intro i t hi h
      simp only [readTree] at h ⊢
      cases hai : A[i]? with
      | none => rw [hai] at h; cases h
      | some node =>
          rw [hai] at h
          rw [hpre i hi, hai]
          rw [Option.map_eq_some'] at h
          obtain ⟨ts, hts, rfl⟩ := h
          rw [Option.map_eq_some']
          refine ⟨ts, subs_loop_push_mem _ _ node.subcommands ?_ ts hts, rfl⟩
          intro p hp u hu
          have := hCA i node hai p hp
          exact ih p.2 u (by omega) hu

theorem height_le_of_mem :
    ∀ (cs : List (String × ClickCommand)) (q : String × ClickCommand), q ∈ cs →
      height q.2 ≤ height_children cs := by
  intro cs
  induction cs with
  | nil =>
      intro q hq
      cases hq
  | cons hd rest ih =>
      intro q hq
      obtain ⟨n, c⟩ := hd
      rcases List.mem_cons.1 hq with rfl | hq
      · simp only [height_children]
        exact Nat.le_max_left _ _
      · simp only [height_children]
        exact Nat.le_trans (ih q hq) (Nat.le_max_right _ _)

theorem subs_loop_of_forall₂ (arena : List CommandSchema) (fuel : Nat) :
    ∀ (subs : List (String × Nat)) (cs : List (String × ClickCommand)),
      List.Forall₂ (fun (p : String × Nat) (q : String × ClickCommand) =>
        p.1 = q.1 ∧ readTree arena (height q.2) p.2 = some (spec_shape q.1 q.2)) subs cs →
      (∀ q ∈ cs, height q.2 ≤ fuel) →
      subs_loop (fun j => readTree arena fuel j) subs =
        some (spec_shape_children cs) := by
  intro subs cs hF
  induction hF with
  | nil =>
      intro _
      simp [subs_loop, spec_shape_children]
  | @cons a b l₁ l₂ hr hFrest ih =>
      intro hfuel
      obtain ⟨an, aj⟩ := a
      obtain ⟨bn, bc⟩ := b
      obtain ⟨heq, hread⟩ := hr
      simp only at heq
      subst heq
      have h1 : readTree arena fuel aj = some (spec_shape an bc) :=
        readTree_mono arena (height bc) fuel aj _
          (hfuel (an, bc) (List.mem_cons_self _ _)) hread
      have h2 := ih (fun q hq => hfuel q (List.mem_cons_of_mem _ hq))
      simp only [subs_loop, h1, h2, spec_shape_children]

mutual

theorem process_command_shape (nm : String) (cmd : ClickCommand) (parent : Option Nat)
    (arena : List CommandSchema)
    (hp : ∀ q, parent = some q → q < arena.length) (hinv : ArenaInv arena) :
    readTree (process_command nm cmd parent arena).1 (height cmd) arena.length =
      some (spec_shape nm cmd) := by
  cases cmd with
  | command h cb ps =>
      simp only [process_command, height, readTree, spec_shape]
      rw [List.getElem?_concat_length]
      simp [subs_loop]
  | group h cb ps cs =>
      have hinv1 : ArenaInv (arena ++
          [(⟨nm, cb, h, (process_params ps).1, (process_params ps).2, [], parent⟩ :
            CommandSchema)]) :=
        arenaInv_append arena hinv _ rfl hp
      obtain ⟨hlen, hpre, hfst, hmem⟩ := process_children_spec cs arena.length
        (arena ++ [⟨nm, cb, h, (process_params ps).1, (process_params ps).2, [], parent⟩])
      have hinvC := process_children_inv cs arena.length
        (arena ++ [⟨nm, cb, h, (process_params ps).1, (process_params ps).2, [], parent⟩])
        (by simp) hinv1
      have hF := process_children_shape cs arena.length
        (arena ++ [⟨nm, cb, h, (process_params ps).1, (process_params ps).2, [], parent⟩])
        (by simp) hinv1
      simp only [List.length_append, List.length_cons, List.length_nil] at hlen hpre hmem hF
      simp only [process_command, height, readTree, spec_shape]
      rw [List.getElem?_set_eq_of_lt _ (by omega)]
      have hF2 : List.Forall₂ (fun (p : String × Nat) (q : String × ClickCommand) =>
          p.1 = q.1 ∧ readTree ((process_children cs arena.length
            (arena ++ [⟨nm, cb, h, (process_params ps).1, (process_params ps).2, [],
              parent⟩])).1.set arena.length
            ⟨nm, cb, h, (process_params ps).1, (process_params ps).2,
              (process_children cs arena.length
                (arena ++ [⟨nm, cb, h, (process_params ps).1, (process_params ps).2, [],
                  parent⟩])).2, parent⟩) (height q.2) p.2 = some (spec_shape q.1 q.2))
          (process_children cs arena.length
            (arena ++ [⟨nm, cb, h, (process_params ps).1, (process_params ps).2, [],
              parent⟩])).2 cs := by
        refine List.Forall₂.imp ?_ hF
        intro p q hr
        refine ⟨hr.1, readTree_set_of_above _ hinvC.2.1 arena.length _
          (height q.2) p.2 _ (by omega) hr.2.2⟩
      have hsl := subs_loop_of_forall₂ _ (height_children cs) _ cs hF2
        (fun q hq => height_le_of_mem cs q hq)
      simp only [hsl]
      rfl
termination_by sizeOf cmd

theorem process_children_shape (cs : List (String × ClickCommand)) (parentIdx : Nat)
    (arena : List CommandSchema)
    (hpi : parentIdx < arena.length) (hinv : ArenaInv arena) :
    List.Forall₂ (fun (p : String × Nat) (q : String × ClickCommand) =>
      p.1 = q.1 ∧ arena.length ≤ p.2 ∧
      readTree (process_children cs parentIdx arena).1 (height q.2) p.2 =
        some (spec_shape q.1 q.2))
      (process_children cs parentIdx arena).2 cs := by
  cases cs with
  | nil =>
      simp only [process_children]
      exact List.Forall₂.nil
  | cons hd rest =>
      obtain ⟨n, c⟩ := hd
      have hM1 := process_command_shape n c (some parentIdx) arena
        (fun q hq => by injection hq with hq; omega) hinv
      have hinv1 := process_command_inv n c (some parentIdx) arena
        (fun q hq => by injection hq with hq; omega) hinv
      obtain ⟨hlt, _, _⟩ := process_command_spec n c (some parentIdx) arena
      have hidx := process_command_idx n c (some parentIdx) arena
      obtain ⟨hlen2, hpre2, _, _⟩ :=
        process_children_spec rest parentIdx (process_command n c (some parentIdx) arena).1
      have hF := process_children_shape rest parentIdx
        (process_command n c (some parentIdx) arena).1 (by omega) hinv1
      simp only [process_children]
      refine List.Forall₂.cons ⟨rfl, ?_, ?_⟩ ?_
      · rw [hidx]
      · rw [hidx]
        exact readTree_extend _ _ hinv1.2.1 hpre2 (height c) arena.length _
          (by omega) hM1
      · refine List.Forall₂.imp ?_ hF
        intro p q hr
        exact ⟨hr.1, by omega, hr.2.2⟩
termination_by sizeOf cs

end

theorem introspect_aux_shape (cs : List (String × ClickCommand)) (arena : List CommandSchema)
    (hinv : ArenaInv arena) :
    List.Forall₂ (fun (p : String × Nat) (q : String × ClickCommand) =>
      p.1 = q.1 ∧ readTree (introspect_aux cs arena).1 (height q.2) p.2 =
        some (spec_shape q.1 q.2))
      (introspect_aux cs arena).2 cs := by
  induction cs generalizing arena with
  | nil =>
      simp only [introspect_aux]
      exact List.Forall₂.nil
  | cons hd rest ih =>
      obtain ⟨n, c⟩ := hd
      have hM1 := process_command_shape n c none arena
        (fun q hq => Option.noConfusion hq) hinv
      have hinv1 := process_command_inv n c none arena
        (fun q hq => Option.noConfusion hq) hinv
      obtain ⟨hlt, _, _⟩ := process_command_spec n c none arena
      have hidx := process_command_idx n c none arena
      obtain ⟨_, hlen2, hpre2, _, _⟩ :=
        introspect_aux_spec rest (process_command n c none arena).1 hinv1
      have hF := ih (process_command n c none arena).1 hinv1
      simp only [introspect_aux]
      refine List.Forall₂.cons ⟨rfl, ?_⟩ hF
      rw [hidx]
      exact readTree_extend _ _ hinv1.2.1 hpre2 (height c) arena.length _
        (by omega) hM1

/-- C8: `introspect_click_app` returns a mapping with exactly the keys of
the input mapping, each top level schema built with absent `parent`, and
each entry's `subcommands` mirroring the input's nesting (names, key for
key, at every level, to unbounded depth): reading the nesting structure
back out of the arena yields exactly the `spec_shape` of the input command.
In particular a group with zero children reads back as a node with an empty
(present) `subcommands` list. -/
theorem C8_mirrors_input (app : List (String × ClickCommand)) :
    (introspect_click_app app).2.map Prod.fst = app.map Prod.fst ∧
    (∀ p ∈ (introspect_click_app app).2, ∃ node,
      (introspect_click_app app).1[p.2]? = some node ∧ node.parent = none) ∧
    List.Forall₂ (fun (p : String × Nat) (q : String × ClickCommand) =>
      p.1 = q.1 ∧ readTree (introspect_click_app app).1 (height q.2) p.2 =
        some (spec_shape q.1 q.2))
      (introspect_click_app app).2 app := by
  obtain ⟨_, _, _, hfst, hF⟩ := introspect_aux_spec app [] arenaInv_nil
  refine ⟨hfst, ?_, introspect_aux_shape app [] arenaInv_nil⟩
  intro p hp
  obtain ⟨q, hq, _, _, _, node, hnode, hpar, _⟩ := forall₂_mem_left hF p hp
  exact ⟨node, hnode, hpar⟩

/-- Witness for C8 at the concrete `demo_app`: same keys, root parent
absent, and the nesting reads back as the input shape — with the empty
group present as an empty `subcommands` list, not absent. -/
theorem C8_witness :
    (introspect_click_app demo_app).2.map Prod.fst = demo_app.map Prod.fst ∧
    (∃ node, (introspect_click_app demo_app).1[0]? = some node ∧ node.parent = none) ∧
    readTree (introspect_click_app demo_app).1
      (height (ClickCommand.group (some "root doc") (some 7)
        [Param.option "verbose" (ParamType.plain "bool") false
          (some (Value.vBool false)) none]
        [("sub", ClickCommand.command (some "sub doc") (some 8)
            [Param.argument "path" (ParamType.plain "text") true none]),
         ("emptygrp", ClickCommand.group none none [] [])])) 0 =
      some (SchemaTree.mk "root" [("sub", SchemaTree.mk "sub" []),
        ("emptygrp", SchemaTree.mk "emptygrp" [])]) := by
  have h := C8_mirrors_input demo_app
  refine ⟨h.1, h.2.1 ("root", 0) (by
    simp [demo_app, introspect_click_app, introspect_aux, process_command,
      process_children, process_params]), ?_⟩
  obtain ⟨q, hq, hrel⟩ := forall₂_mem_left h.2.2 ("root", 0) (by
    simp [demo_app, introspect_click_app, introspect_aux, process_command,
      process_children, process_params])
  simp only [demo_app, List.mem_singleton] at hq
  subst hq
  have h2 := hrel.2
  simp only [spec_shape, spec_shape_children] at h2
  exact h2

/-- C9: the extraction walk always terminates on the (inductively finite
and acyclic — a cyclic value is not even representable, mirroring the
unchecked caller precondition) input tree, and its recursion depth is
bounded by the depth of the input tree: the fuelled extractor, which spends
one unit of budget per nesting level exactly like the Python call stack,
succeeds with any budget of at least the input's height and computes the
full extraction; no cycle detection is performed by either version. -/
theorem C9_depth_bounded (fuel : Nat) (nm : String) (cmd : ClickCommand)
    (parent : Option Nat) (arena : List CommandSchema) (hh : height cmd ≤ fuel) :
    process_command_fuel fuel nm cmd parent arena =
      some (process_command nm cmd parent arena) := by
  induction fuel generalizing nm cmd parent arena with
  | zero =>
      exfalso
      cases cmd <;> simp [height] at hh
  | succ fuel ih =>
      cases cmd with
      | command h cb ps =>
          simp [process_command_fuel, process_command]
      | group h cb ps cs =>
          have hhc : height_children cs ≤ fuel := by
            simp only [height] at hh
            omega
          have hcl : ∀ (cs' : List (String × ClickCommand)),
              (∀ q ∈ cs', height q.2 ≤ fuel) →
              ∀ (pidx : Nat) (ar : List CommandSchema),
              children_loop (fun n c p a => process_command_fuel fuel n c p a)
                  cs' pidx ar =
                some (process_children cs' pidx ar) := by
            intro cs'
            induction cs' with
            | nil =>
                intro _ pidx ar
                simp [children_loop, process_children]
            | cons hd rest ihc =>
                intro hhs pidx ar
                obtain ⟨n, c⟩ := hd
                simp only [children_loop,
                  ih n c (some pidx) ar (hhs (n, c) (List.mem_cons_self _ _)),
                  ihc (fun q hq => hhs q (List.mem_cons_of_mem _ hq)) pidx,
                  process_children]
          simp only [process_command_fuel, process_command]
          rw [hcl cs (fun q hq => Nat.le_trans (height_le_of_mem cs q hq) hhc)
            arena.length _]

/-- Witness for C9 at a concrete two level input, with budget exactly the
input's height. -/
theorem C9_witness :
    process_command_fuel 2 "g" (ClickCommand.group none none []
        [("a", ClickCommand.command none none [])]) none [] =
      some (process_command "g" (ClickCommand.group none none []
        [("a", ClickCommand.command none none [])]) none []) :=
  C9_depth_bounded 2 "g" (ClickCommand.group none none []
      [("a", ClickCommand.command none none [])]) none []
    (by simp [height, height_children])
